import Mathlib

/-!
Verification of the audio frequency detection program (`src/main.py`).

The development shallowly embeds the program's components:

* the circular plot buffer updated in `process_audio_blocks` (lines 58-69)
  and read by `get_latest_plot_samples` (lines 109-119); the buffer length
  and the number of plotted samples are the configuration values
  `buffer_length` and `PLOT_SAMPLES` of the source, kept as parameters so
  that statements quantify over ring-buffer states;
* the FFT pitch estimator of `process_audio_blocks` (lines 71-106):
  Hann window, real FFT magnitudes, DC zeroing, argmax, parabolic
  interpolation and calibration, over the real numbers;
* `freq_to_note` (lines 129-157) with Python's round-half-to-even;
* the consumer loop of `process_audio_blocks` (lines 53-106), with the
  queue contents as a list of `Option` blocks (`none` is the stop
  sentinel).

Numpy slice assignment `a[i:j] = b` requires the two sides to have the
same length and raises `ValueError` otherwise; a failing write is
modelled as `none` (the exception kills the worker thread, and no claim
inspects the partially mutated buffer afterwards).
-/

namespace AudioFreq

/-- Config constant `SAMPLE_RATE = 44100` (line 11). -/
def SAMPLE_RATE : ℝ := 44100

/-- Config constant `BLOCK_SIZE = 2048` (line 12). -/
def BLOCK_SIZE : ℕ := 2048

/-- Config constant `CALIBRATION_SCALE = 1.0` (line 21). -/
def CALIBRATION_SCALE : ℝ := 1

/-- Config constant `CALIBRATION_OFFSET_HZ = 0.0` (line 22). -/
def CALIBRATION_OFFSET_HZ : ℝ := 0

section RingBuffer

variable {α : Type*}

/-- Numpy slice assignment `buf[i:i+xs.length] = xs` (for an in-range
slice): the written buffer. -/
def setSlice (buf : List α) (i : ℕ) (xs : List α) : List α :=
  buf.take i ++ xs ++ buf.drop (i + xs.length)

/-- The ring-buffer update of `process_audio_blocks` (lines 58-69):

    n = len(block)
    end_index = buffer_index + n
    if end_index <= buffer_length:
        audio_buffer[buffer_index:end_index] = block
    else:
        first_part = buffer_length - buffer_index
        audio_buffer[buffer_index:] = block[:first_part]
        audio_buffer[:n - first_part] = block[first_part:]
    buffer_index = (buffer_index + n) % buffer_length

The second slice assignment of the wrap branch raises `ValueError` when
`n - first_part` exceeds the buffer length (the left side is clamped to
the whole buffer while the right side keeps `n - first_part` elements);
that failure is `none`.  Returns the new buffer and the new cursor. -/
def writeBlock (buf : List α) (bi : ℕ) (block : List α) : Option (List α × ℕ) :=
  let n := block.length
  let end_index := bi + n
  if end_index ≤ buf.length then
    some (setSlice buf bi block, (bi + n) % buf.length)
  else
    let first_part := buf.length - bi
    if n - first_part ≤ buf.length then
      some (setSlice (setSlice buf bi (block.take first_part)) 0 (block.drop first_part),
        (bi + n) % buf.length)
    else
      none

/-- Sequential single-index writes through a block, advancing the cursor
modulo the capacity after each sample.  Modelled from the spec: "wraparound
write takes exactly the behavior of sequential single-index writes through
the whole block". -/
def writeSeq (buf : List α) (bi : ℕ) (block : List α) : List α × ℕ :=
  block.foldl (fun s x => (s.1.set s.2 x, (s.2 + 1) % s.1.length)) (buf, bi)

/-- The buffer contents in chronological order (oldest sample first) when
the cursor is `bi`: the samples from the cursor to the end, then the
samples before the cursor. -/
def chrono (buf : List α) (bi : ℕ) : List α :=
  buf.drop bi ++ buf.take bi

/-- The last `n` elements of a list. -/
def lastN (n : ℕ) (l : List α) : List α :=
  l.drop (l.length - n)

/-- Python slice `buf[s:]` for a possibly negative integer start `s`:
a negative start counts from the end and is clamped to the first index. -/
def pySliceFrom (buf : List α) (s : ℤ) : List α :=
  if s < 0 then buf.drop (buf.length - (-s).toNat) else buf.drop s.toNat

/-- Function `get_latest_plot_samples` (lines 109-119), for buffer `buf` with write
cursor `bi`, reading the last `k` samples (`k` is the configuration value
`PLOT_SAMPLES`):

    if buffer_index >= PLOT_SAMPLES:
        data = audio_buffer[buffer_index - PLOT_SAMPLES:buffer_index]
    else:
        first_part = audio_buffer[buffer_length - (PLOT_SAMPLES - buffer_index):]
        second_part = audio_buffer[:buffer_index]
        data = np.concatenate((first_part, second_part))

`buffer_length - (PLOT_SAMPLES - buffer_index)` is computed in ℤ, as in
Python, because it can be negative when `PLOT_SAMPLES` exceeds the
buffer length. -/
def get_latest_plot_samples (buf : List α) (bi : ℕ) (k : ℕ) : List α :=
  if k ≤ bi then
    (buf.take bi).drop (bi - k)
  else
    pySliceFrom buf ((buf.length : ℤ) - ((k : ℤ) - (bi : ℤ))) ++ buf.take bi

/-- Writing a sequence of blocks in order, starting from buffer `buf` and
cursor `bi`; `none` as soon as one write raises. -/
def writeMany (buf : List α) (bi : ℕ) : List (List α) → Option (List α × ℕ)
  | [] => some (buf, bi)
  | b :: bs =>
    match writeBlock buf bi b with
    | none => none
    | some p => writeMany p.1 p.2 bs

theorem length_chrono (buf : List α) (bi : ℕ) : (chrono buf bi).length = buf.length := by
  simp [chrono]
  omega

theorem chrono_zero (buf : List α) : chrono buf 0 = buf := by
  simp [chrono]

theorem chrono_length_eq (buf : List α) : chrono buf buf.length = buf := by
  simp [chrono]

theorem chrono_mod (buf : List α) (j m : ℕ) (hm : buf.length = m) (hj : j ≤ m)
    (h0 : 0 < m) : chrono buf (j % m) = chrono buf j := by
  rcases eq_or_lt_of_le hj with h | h
  · subst h
    rw [Nat.mod_self, chrono_zero, ← hm, chrono_length_eq]
  · rw [Nat.mod_eq_of_lt h]

theorem lastN_of_length_le (l : List α) (n : ℕ) (h : l.length ≤ n) : lastN n l = l := by
  rw [lastN, Nat.sub_eq_zero_of_le h, List.drop_zero]

theorem lastN_append_right (A B : List α) (n : ℕ) (h : n ≤ B.length) :
    lastN n (A ++ B) = lastN n B := by
  rw [lastN, lastN, List.length_append, List.drop_append_eq_append_drop,
    List.drop_of_length_le (by omega), List.nil_append]
  congr 1
  omega

theorem take_drop_glue (l : List α) (fp d : ℕ) (h : d ≤ fp) :
    (l.take fp).drop d ++ l.drop fp = l.drop d := by
  have h2 : l.drop fp = (l.drop d).drop (fp - d) := by
    rw [List.drop_drop]
    congr 1
    omega
  rw [List.drop_take, h2, List.take_append_drop]

/-- The ring-buffer write, when it completes, preserves the buffer length,
advances the cursor by the block length modulo the capacity, and replaces
the chronological contents with the last `capacity` samples of the old
chronological contents followed by the block. -/
theorem writeBlock_eq (buf block : List α) (bi : ℕ) (buf' : List α) (bi' : ℕ)
    (hbi : bi < buf.length)
    (h : writeBlock buf bi block = some (buf', bi')) :
    buf'.length = buf.length ∧
      bi' = (bi + block.length) % buf.length ∧
      chrono buf' bi' = lastN buf.length (chrono buf bi ++ block) := by
  have hlen2 : (chrono buf bi ++ block).length - buf.length = block.length := by
    rw [List.length_append, length_chrono]
    omega
  have htakebi : (buf.take bi).length = bi := by
    rw [List.length_take]
    omega
  simp only [writeBlock] at h
  split_ifs at h with h1 h2
  · obtain ⟨rfl, rfl⟩ := Prod.mk.inj (Option.some.inj h)
    have hpre : (buf.take bi ++ block).length = bi + block.length := by
      rw [List.length_append, htakebi]
    have hlen : (setSlice buf bi block).length = buf.length := by
      simp [setSlice, List.length_take]
      omega
    refine ⟨hlen, rfl, ?_⟩
    rw [chrono_mod _ _ buf.length hlen h1 (by omega)]
    have hs : setSlice buf bi block = (buf.take bi ++ block) ++ buf.drop (bi + block.length) :=
      rfl
    rw [chrono, hs, List.drop_left' hpre, List.take_left' hpre]
    rw [lastN, hlen2, chrono, List.append_assoc, List.drop_append_eq_append_drop,
      List.drop_drop,
      Nat.sub_eq_zero_of_le (show block.length ≤ (buf.drop bi).length by
        rw [List.length_drop]; omega),
      List.drop_zero]
  · obtain ⟨rfl, rfl⟩ := Prod.mk.inj (Option.some.inj h)
    have hfp : (buf.length : ℕ) - bi < block.length := by omega
    have htfp : (block.take (buf.length - bi)).length = buf.length - bi := by
      rw [List.length_take]
      omega
    have e_inner : setSlice buf bi (block.take (buf.length - bi)) =
        buf.take bi ++ block.take (buf.length - bi) := by
      rw [setSlice, htfp, show bi + (buf.length - bi) = buf.length by omega,
        List.drop_length, List.append_nil]
    have hinner_len : (buf.take bi ++ block.take (buf.length - bi)).length = buf.length := by
      rw [List.length_append, htakebi, htfp]
      omega
    have hdlen : (block.drop (buf.length - bi)).length = block.length - (buf.length - bi) := by
      rw [List.length_drop]
    have e_outer : setSlice (setSlice buf bi (block.take (buf.length - bi))) 0
        (block.drop (buf.length - bi)) =
        block.drop (buf.length - bi) ++
          (buf.take bi ++ block.take (buf.length - bi)).drop
            (block.length - (buf.length - bi)) := by
      rw [setSlice, e_inner, List.take_zero, List.nil_append, hdlen, Nat.zero_add]
    have hlen' : (setSlice (setSlice buf bi (block.take (buf.length - bi))) 0
        (block.drop (buf.length - bi))).length = buf.length := by
      rw [e_outer, List.length_append, hdlen, List.length_drop, hinner_len]
      omega
    refine ⟨hlen', rfl, ?_⟩
    have hmod : (bi + block.length) % buf.length =
        (bi + block.length - buf.length) % buf.length := by
      rw [Nat.mod_eq_sub_mod (by omega)]
    rw [hmod, chrono_mod _ _ buf.length hlen' (by omega) (by omega)]
    have hd : bi + block.length - buf.length = block.length - (buf.length - bi) := by
      omega
    rw [hd]
    rw [chrono, e_outer, List.drop_left' hdlen, List.take_left' hdlen]
    have hrhs : lastN buf.length (chrono buf bi ++ block) =
        (buf.take bi ++ block).drop (block.length - (buf.length - bi)) := by
      rw [lastN, hlen2, chrono, List.append_assoc, List.drop_append_eq_append_drop,
        List.drop_of_length_le (show (buf.drop bi).length ≤ block.length by
          rw [List.length_drop]; omega),
        List.nil_append, List.length_drop]
    rw [hrhs]
    calc (buf.take bi ++ block.take (buf.length - bi)).drop
            (block.length - (buf.length - bi)) ++ block.drop (buf.length - bi)
        = ((buf.take bi).drop (block.length - (buf.length - bi)) ++
            (block.take (buf.length - bi)).drop (block.length - (buf.length - bi) - bi)) ++
            block.drop (buf.length - bi) := by
          rw [List.drop_append_eq_append_drop, htakebi]
      _ = (buf.take bi).drop (block.length - (buf.length - bi)) ++
            ((block.take (buf.length - bi)).drop (block.length - (buf.length - bi) - bi) ++
              block.drop (buf.length - bi)) := by
          rw [List.append_assoc]
      _ = (buf.take bi).drop (block.length - (buf.length - bi)) ++
            block.drop (block.length - (buf.length - bi) - bi) := by
          rw [take_drop_glue block (buf.length - bi)
            (block.length - (buf.length - bi) - bi) (by omega)]
      _ = (buf.take bi ++ block).drop (block.length - (buf.length - bi)) := by
          rw [List.drop_append_eq_append_drop, htakebi]

/-- The ring-buffer write completes exactly when the incoming block, started
at the cursor, needs at most one wraparound: `cursor + n ≤ 2 * capacity`. -/
theorem writeBlock_isSome (buf block : List α) (bi : ℕ) (hbi : bi < buf.length)
    (hfit : bi + block.length ≤ 2 * buf.length) :
    ∃ p, writeBlock buf bi block = some p := by
  simp only [writeBlock]
  split_ifs with h1 h2
  · exact ⟨_, rfl⟩
  · exact ⟨_, rfl⟩
  · omega

/-- The ring-buffer write raises (returns `none`) when the block overshoots
a single wraparound. -/
theorem writeBlock_isNone (buf block : List α) (bi : ℕ) (hbi : bi < buf.length)
    (hover : 2 * buf.length < bi + block.length) :
    writeBlock buf bi block = none := by
  simp only [writeBlock]
  split_ifs with h1 h2
  · omega
  · omega
  · rfl

theorem lastN_lastN_append (A B : List α) (n : ℕ) :
    lastN n (lastN n A ++ B) = lastN n (A ++ B) := by
  rcases le_or_lt n A.length with hn | hn
  · simp only [lastN, List.length_append, List.length_drop,
      List.drop_append_eq_append_drop, List.drop_drop]
    congr 1
    · congr 1
      omega
    · congr 1
      omega
  · have h : lastN n A = A := lastN_of_length_le A n hn.le
    rw [h]

theorem lastN_snoc (V : List α) (x : α) (L : ℕ) (hV : V.length = L) (hL : 0 < L) :
    lastN L (V ++ [x]) = V.drop 1 ++ [x] := by
  subst hV
  rw [lastN, List.length_append]
  have h1 : V.length + [x].length - V.length = 1 := by simp
  rw [h1, List.drop_append_eq_append_drop, Nat.sub_eq_zero_of_le hL, List.drop_zero]

theorem chrono_set (buf : List α) (bi : ℕ) (x : α) (hbi : bi < buf.length) :
    chrono (buf.set bi x) ((bi + 1) % buf.length) = (chrono buf bi).drop 1 ++ [x] := by
  have hset : buf.set bi x = (buf.take bi ++ [x]) ++ buf.drop (bi + 1) := by
    rw [List.set_eq_take_cons_drop x hbi]
    simp
  have hlen : (buf.set bi x).length = buf.length := by simp
  have hpl : (buf.take bi ++ [x]).length = bi + 1 := by
    simp [List.length_take]
    omega
  rw [chrono_mod _ _ buf.length hlen (by omega) (by omega)]
  rw [chrono, hset, List.drop_left' hpl, List.take_left' hpl]
  rw [chrono, List.drop_append_eq_append_drop, List.drop_drop,
    Nat.sub_eq_zero_of_le (show 1 ≤ (buf.drop bi).length by rw [List.length_drop]; omega),
    List.drop_zero, List.append_assoc]

theorem writeSeq_cons (buf : List α) (bi : ℕ) (x : α) (xs : List α) :
    writeSeq buf bi (x :: xs) = writeSeq (buf.set bi x) ((bi + 1) % buf.length) xs := rfl

theorem writeSeq_len_cursor (block : List α) : ∀ (buf : List α) (bi : ℕ), bi < buf.length →
    (writeSeq buf bi block).1.length = buf.length ∧
      (writeSeq buf bi block).2 = (bi + block.length) % buf.length := by
  induction block with
  | nil =>
    intro buf bi hbi
    exact ⟨rfl, by simp [writeSeq, Nat.mod_eq_of_lt hbi]⟩
  | cons x xs ih =>
    intro buf bi hbi
    rw [writeSeq_cons]
    have h1 : (buf.set bi x).length = buf.length := by simp
    obtain ⟨ha, hb⟩ := ih (buf.set bi x) ((bi + 1) % buf.length)
      (by rw [h1]; exact Nat.mod_lt _ (by omega))
    refine ⟨by rw [ha, h1], ?_⟩
    rw [hb, h1, Nat.mod_add_mod]
    congr 1
    simp
    omega

theorem writeSeq_chrono (block : List α) : ∀ (buf : List α) (bi : ℕ), bi < buf.length →
    chrono (writeSeq buf bi block).1 (writeSeq buf bi block).2 =
      lastN buf.length (chrono buf bi ++ block) := by
  induction block with
  | nil =>
    intro buf bi hbi
    rw [List.append_nil]
    exact (lastN_of_length_le _ _ (le_of_eq (length_chrono buf bi))).symm
  | cons x xs ih =>
    intro buf bi hbi
    rw [writeSeq_cons]
    have h1 : (buf.set bi x).length = buf.length := by simp
    have hbi1 : (bi + 1) % buf.length < (buf.set bi x).length := by
      rw [h1]
      exact Nat.mod_lt _ (by omega)
    rw [ih (buf.set bi x) ((bi + 1) % buf.length) hbi1, h1, chrono_set buf bi x hbi]
    rw [show (chrono buf bi).drop 1 ++ [x] = lastN buf.length (chrono buf bi ++ [x]) from
      (lastN_snoc _ x _ (length_chrono buf bi) (by omega)).symm]
    rw [lastN_lastN_append, List.append_assoc, List.singleton_append]

theorem chrono_inj (A B : List α) (bi : ℕ) (hlen : A.length = B.length)
    (h : chrono A bi = chrono B bi) : A = B := by
  have h1 : (A.drop bi).length = (B.drop bi).length := by
    rw [List.length_drop, List.length_drop, hlen]
  obtain ⟨h2, h3⟩ := List.append_inj h h1
  calc A = A.take bi ++ A.drop bi := (List.take_append_drop bi A).symm
    _ = B.take bi ++ B.drop bi := by rw [h2, h3]
    _ = B := List.take_append_drop bi B

theorem get_latest_eq_lastN (buf : List α) (bi k : ℕ) (hbi : bi < buf.length)
    (hk : k ≤ buf.length) :
    get_latest_plot_samples buf bi k = lastN k (chrono buf bi) := by
  rw [get_latest_plot_samples]
  split_ifs with h
  · rw [lastN, length_chrono, chrono, List.drop_append_eq_append_drop,
      List.drop_of_length_le (show (buf.drop bi).length ≤ buf.length - k by
        rw [List.length_drop]; omega),
      List.nil_append, List.length_drop]
    congr 1
    omega
  · rw [pySliceFrom, if_neg (by omega)]
    have ht : ((buf.length : ℤ) - ((k : ℤ) - (bi : ℤ))).toNat = buf.length - (k - bi) := by
      omega
    rw [ht]
    rw [lastN, length_chrono, chrono, List.drop_append_eq_append_drop,
      List.length_drop, List.drop_drop,
      Nat.sub_eq_zero_of_le (show buf.length - k ≤ buf.length - bi by omega),
      List.drop_zero]
    congr 2
    omega

theorem writeMany_eq (blocks : List (List α)) : ∀ (buf : List α) (bi : ℕ)
    (buf' : List α) (bi' : ℕ), bi < buf.length → writeMany buf bi blocks = some (buf', bi') →
    buf'.length = buf.length ∧ bi' < buf.length ∧
      chrono buf' bi' = lastN buf.length (chrono buf bi ++ blocks.flatten) := by
  induction blocks with
  | nil =>
    intro buf bi buf' bi' hbi h
    rw [writeMany] at h
    obtain ⟨rfl, rfl⟩ := Prod.mk.inj (Option.some.inj h)
    refine ⟨rfl, hbi, ?_⟩
    rw [List.flatten_nil, List.append_nil]
    exact (lastN_of_length_le _ _ (le_of_eq (length_chrono buf bi))).symm
  | cons b bs ih =>
    intro buf bi buf' bi' hbi h
    rw [writeMany] at h
    cases hw : writeBlock buf bi b with
    | none =>
      rw [hw] at h
      cases h
    | some p =>
      rw [hw] at h
      obtain ⟨hl, hc, hch⟩ := writeBlock_eq buf b bi p.1 p.2 hbi hw
      have hp2 : p.2 < buf.length := by
        rw [hc]
        exact Nat.mod_lt _ (by omega)
      obtain ⟨ihl, ihb, ihch⟩ := ih p.1 p.2 buf' bi' (by rw [hl]; exact hp2) h
      refine ⟨by rw [ihl, hl], by rw [← hl]; exact ihb, ?_⟩
      rw [ihch, hl, hch, List.flatten_cons, ← List.append_assoc]
      exact lastN_lastN_append _ _ _

end RingBuffer

section Pitch

/-- The window `np.hanning(M)` (line 73): the Hann window of length `M`, with coefficients
`0.5 - 0.5 * cos(2 pi k / (M - 1))`; `np.hanning(1) = [1.]` and
`np.hanning(0) = []`. -/
noncomputable def hanning (M : ℕ) : List ℝ :=
  if M = 1 then [1]
  else (List.range M).map fun k =>
    1 / 2 - 1 / 2 * Real.cos (2 * Real.pi * (k : ℝ) / ((M - 1 : ℕ) : ℝ))

/-- The magnitudes `np.abs(np.fft.rfft(x))` (lines 77-78) of the real-input
discrete Fourier transform, bins `k = 0 .. n/2` where `n = len(x)`. -/
noncomputable def rfftMags (x : List ℝ) : List ℝ :=
  (List.range (x.length / 2 + 1)).map fun k =>
    Complex.abs (∑ j ∈ Finset.range x.length,
      ((x.getD j 0 : ℝ) : ℂ) *
        Complex.exp (-(2 * (Real.pi : ℂ) * Complex.I * (j : ℂ) * (k : ℂ)) / (x.length : ℂ)))

/-- Line 81, `mags[0] = 0`: zero the DC bin. -/
noncomputable def zeroDC (mags : List ℝ) : List ℝ := mags.set 0 0

/-- Helper for `argmax`: scan the remaining list, keeping the index `bi` and
value `bv` of the best element seen so far; a later element replaces the
best only when strictly greater, so the first occurrence of the maximum
wins, as with `np.argmax`. -/
noncomputable def argmaxGo : List ℝ → ℕ → ℝ → ℕ → ℕ
  | [], bi, _, _ => bi
  | x :: xs, bi, bv, i => if bv < x then argmaxGo xs i x (i + 1) else argmaxGo xs bi bv (i + 1)

/-- The peak search `np.argmax` (line 82): index of the first occurrence of the maximum. -/
noncomputable def argmax : List ℝ → ℕ
  | [] => 0
  | x :: xs => argmaxGo xs 0 x 1

/-- The parabolic-interpolation offset of lines 87-98:

    if 1 <= peak_idx < len(mags) - 1:
        alpha, beta, gamma = mags[peak_idx-1], mags[peak_idx], mags[peak_idx+1]
        denominator = alpha - 2 * beta + gamma
        peak_adj = 0.5 * (alpha - gamma) / denominator if denominator != 0 else 0.0
    else:
        peak_adj = 0.0
-/
noncomputable def parabolicAdj (mags : List ℝ) (p : ℕ) : ℝ :=
  if 1 ≤ p ∧ p < mags.length - 1 then
    let alpha := mags.getD (p - 1) 0
    let beta := mags.getD p 0
    let gamma := mags.getD (p + 1) 0
    let denominator := alpha - 2 * beta + gamma
    if denominator ≠ 0 then 0.5 * (alpha - gamma) / denominator else 0
  else 0

/-- The pitch estimate of one block (lines 71-104): Hann window, real FFT
magnitudes, DC zeroing, peak search, parabolic refinement, bin-to-Hz
conversion and calibration. -/
noncomputable def pitchOfBlock (block : List ℝ) : ℝ :=
  let window := hanning block.length
  let block_win := List.zipWith (· * ·) block window
  let mags := zeroDC (rfftMags block_win)
  let peak_idx := argmax mags
  let peak_adj := parabolicAdj mags peak_idx
  let freq := ((peak_idx : ℝ) + peak_adj) * SAMPLE_RATE / (block.length : ℝ)
  freq * CALIBRATION_SCALE + CALIBRATION_OFFSET_HZ

/-- The DC-zeroed magnitude spectrum a block is judged by: the composition
of lines 73-81 on the block. -/
noncomputable def spectrumOf (block : List ℝ) : List ℝ :=
  zeroDC (rfftMags (List.zipWith (· * ·) block (hanning block.length)))

/-- The fractional peak offset as the specification words it: if `peak_idx`
is strictly interior (neither the first nor the last bin), with `a`, `b`,
`c` the magnitudes at `peak_idx - 1`, `peak_idx`, `peak_idx + 1` and
denominator `a - 2b + c`, the offset is `0.5 * (a - c) / denominator` when
the denominator is nonzero and `0` otherwise; at either edge it is `0`. -/
noncomputable def specDelta (m : List ℝ) (p : ℕ) : ℝ :=
  if 1 ≤ p ∧ p + 1 < m.length then
    let a := m.getD (p - 1) 0
    let b := m.getD p 0
    let c := m.getD (p + 1) 0
    if a - 2 * b + c ≠ 0 then 0.5 * (a - c) / (a - 2 * b + c) else 0
  else 0

theorem parabolicAdj_eq_specDelta (m : List ℝ) (p : ℕ) :
    parabolicAdj m p = specDelta m p := by
  rw [parabolicAdj, specDelta]
  exact if_congr (by omega) rfl rfl

end Pitch

section NoteMapper

/-- The note names `NOTE_NAMES` (lines 125-126). -/
def NOTE_NAMES : List String :=
  ["C", "C#", "D", "D#"] ++ ["E", "F", "F#", "G"] ++ ["G#", "A", "A#", "B"]

/-- Python's builtin `round`: round to the nearest integer, ties to the
nearest even integer (banker's rounding). -/
noncomputable def pyround (x : ℝ) : ℤ :=
  if Int.fract x = 1 / 2 then (if ⌊x⌋ % 2 = 0 then ⌊x⌋ else ⌊x⌋ + 1) else round x

/-- Function `freq_to_note` (lines 129-157):

    if freq_hz <= 0: return "--", 0.0
    midi_float = 69 + 12 * math.log2(freq_hz / 440.0)
    midi_int = int(round(midi_float))
    midi_int = max(0, min(127, midi_int))
    note_index = midi_int % 12
    octave = midi_int // 12 - 1
    note_name = NOTE_NAMES[note_index] + str(octave)
    cents = (midi_float - midi_int) * 100.0
    return note_name, cents
-/
noncomputable def freq_to_note (freq_hz : ℝ) : String × ℝ :=
  if freq_hz ≤ 0 then ("--", 0)
  else
    let midi_float := 69 + 12 * Real.logb 2 (freq_hz / 440)
    let midi_int := pyround midi_float
    let midi_int := max 0 (min 127 midi_int)
    let note_index := midi_int % 12
    let octave := midi_int / 12 - 1
    let note_name := NOTE_NAMES.getD note_index.toNat "" ++ toString octave
    let cents := (midi_float - (midi_int : ℝ)) * 100
    (note_name, cents)

/-- The MIDI value formula as the specification words it. -/
noncomputable def specMidiFloat (f : ℝ) : ℝ := 69 + 12 * Real.logb 2 (f / 440)

/-- The rounded-then-clamped MIDI integer as the specification words it. -/
noncomputable def specMidiInt (f : ℝ) : ℤ := max 0 (min 127 (pyround (specMidiFloat f)))

/-- The note name and cents as the specification words them: the name is
`NOTE_NAMES[midi mod 12]` followed by the octave `midi / 12 - 1`, and the
cents are `(midi_float - midi) * 100`. -/
noncomputable def specNote (f : ℝ) : String × ℝ :=
  (NOTE_NAMES.getD ((specMidiInt f) % 12).toNat "" ++ toString (specMidiInt f / 12 - 1),
   (specMidiFloat f - (specMidiInt f : ℝ)) * 100)

end NoteMapper

section Pipeline

/-- The worker state of `process_audio_blocks`: the plot buffer, its write
cursor and the published `latest_freq`. -/
structure PState where
  buf : List ℝ
  idx : ℕ
  latest : ℝ

/-- Processing one dequeued block (lines 58-106): the ring-buffer write
followed by the pitch estimate, which is published as `latest_freq`.  An
exception in the ring-buffer write kills the worker (`none`). -/
noncomputable def processOne (s : PState) (block : List ℝ) : Option PState :=
  match writeBlock s.buf s.idx block with
  | none => none
  | some p => some ⟨p.1, p.2, pitchOfBlock block⟩

/-- The consumer loop body applied to a list of blocks in arrival order. -/
noncomputable def runBlocks (s : PState) : List (List ℝ) → Option PState
  | [] => some s
  | b :: bs =>
    match processOne s b with
    | none => none
    | some s' => runBlocks s' bs

/-- The consumer loop of lines 53-106 over the queue contents in dequeue
order: `none` on the queue is the stop sentinel, which breaks the loop;
an exhausted list means the loop is still blocked on `queue.get()` with
state `s`. -/
noncomputable def runQueue (s : PState) : List (Option (List ℝ)) → Option PState
  | [] => some s
  | none :: _ => some s
  | some b :: rest =>
    match processOne s b with
    | none => none
    | some s' => runQueue s' rest

end Pipeline

section ConcreteEvaluations

theorem getD_zeros (j : ℕ) : (([0, 0, 0, 0] : List ℝ)[j]?).getD 0 = 0 := by
  rcases j with _ | _ | _ | _ | j <;> rfl

theorem windowed_unit :
    List.zipWith (· * ·) ([1, 0, 0, 0] : List ℝ) (hanning ([1, 0, 0, 0] : List ℝ).length) =
      [0, 0, 0, 0] := by
  rw [show ([1, 0, 0, 0] : List ℝ).length = 4 from rfl, hanning]
  norm_num [show List.range 4 = [0, 1, 2, 3] from rfl, Real.cos_zero]

theorem rfftMags_zeros : rfftMags ([0, 0, 0, 0] : List ℝ) = [0, 0, 0] := by
  simp [rfftMags, show List.range 3 = [0, 1, 2] from rfl]
  refine ⟨?_, ?_, ?_⟩ <;>
    · apply Finset.sum_eq_zero
      intro j hj
      simp [getD_zeros]

theorem spectrumOf_unit : spectrumOf ([1, 0, 0, 0] : List ℝ) = [0, 0, 0] := by
  rw [spectrumOf, windowed_unit, rfftMags_zeros]
  rfl

theorem argmax_zeros : argmax ([0, 0, 0] : List ℝ) = 0 := by
  simp [argmax, argmaxGo]

theorem argmax_spectrum_unit : argmax (spectrumOf ([1, 0, 0, 0] : List ℝ)) = 0 := by
  rw [spectrumOf_unit, argmax_zeros]

theorem pitchOfBlock_unit : pitchOfBlock ([1, 0, 0, 0] : List ℝ) = 0 := by
  simp only [pitchOfBlock]
  rw [windowed_unit, rfftMags_zeros, show zeroDC ([0, 0, 0] : List ℝ) = [0, 0, 0] from rfl,
    argmax_zeros, parabolicAdj, if_neg (by omega)]
  norm_num [SAMPLE_RATE, CALIBRATION_SCALE, CALIBRATION_OFFSET_HZ]

end ConcreteEvaluations

section Claims

/-- Claim C1: for every audio block of length `N` whose DC-zeroed magnitude
spectrum has its first-occurrence maximum at `peak_idx`, the published
frequency estimate is `(peak_idx + delta) * SAMPLE_RATE / N *
CALIBRATION_SCALE + CALIBRATION_OFFSET_HZ`, where `delta` is the
parabolic-interpolation offset as the specification words it (`specDelta`):
`0.5 * (a - c) / (a - 2b + c)` over the three magnitudes around an interior
peak with nonzero denominator, and `0` at an edge peak or a zero
denominator. -/
theorem pitch_formula (block : List ℝ) (p : ℕ) (h : argmax (spectrumOf block) = p) :
    pitchOfBlock block =
      ((p : ℝ) + specDelta (spectrumOf block) p) * SAMPLE_RATE / (block.length : ℝ) *
        CALIBRATION_SCALE + CALIBRATION_OFFSET_HZ := by
  simp only [pitchOfBlock]
  rw [show zeroDC (rfftMags (List.zipWith (· * ·) block (hanning block.length))) =
      spectrumOf block from rfl, h, parabolicAdj_eq_specDelta]

/-- Witness for C1 at the concrete block `[1, 0, 0, 0]`, whose windowed
spectrum is all zero, so the peak is the (edge) bin 0 and the estimate 0. -/
theorem pitch_formula_witness :
    argmax (spectrumOf ([1, 0, 0, 0] : List ℝ)) = 0 ∧
      pitchOfBlock ([1, 0, 0, 0] : List ℝ) =
        (((0 : ℕ) : ℝ) + specDelta (spectrumOf ([1, 0, 0, 0] : List ℝ)) 0) * SAMPLE_RATE /
          ((([1, 0, 0, 0] : List ℝ).length : ℕ) : ℝ) * CALIBRATION_SCALE +
          CALIBRATION_OFFSET_HZ :=
  ⟨argmax_spectrum_unit, pitch_formula [1, 0, 0, 0] 0 argmax_spectrum_unit⟩

/-- Claim C6 (amended): no length validation exists at the pitch estimation
step: a block whose length differs from `BLOCK_SIZE` is still processed,
with the window and FFT sized to its actual length, and its estimate is
published; nothing is rejected, truncated or padded. -/
theorem mismatched_block_processed (s : PState) (block : List ℝ)
    (hlen : block.length ≠ BLOCK_SIZE) (hfit : s.idx + block.length ≤ s.buf.length) :
    ∃ s', processOne s block = some s' ∧ s'.latest = pitchOfBlock block := by
  simp only [processOne, writeBlock, if_pos hfit]
  exact ⟨_, rfl, rfl⟩

/-- Counterexample for C6 as stated: the length-4 block `[1, 0, 0, 0]` does
not match `BLOCK_SIZE = 2048`, yet the pitch estimation step silently
processes it and returns the numeric estimate `0` instead of rejecting it
with an error. -/
theorem mismatched_block_processed_cex :
    ([1, 0, 0, 0] : List ℝ).length ≠ BLOCK_SIZE ∧
      pitchOfBlock ([1, 0, 0, 0] : List ℝ) = 0 :=
  ⟨by decide, pitchOfBlock_unit⟩

/-- Witness for C6 at a concrete state and block. -/
theorem mismatched_block_processed_witness :
    ∃ s', processOne ⟨[0, 0, 0, 0], 0, 0⟩ ([1, 0, 0, 0] : List ℝ) = some s' ∧
      s'.latest = pitchOfBlock ([1, 0, 0, 0] : List ℝ) :=
  mismatched_block_processed ⟨[0, 0, 0, 0], 0, 0⟩ [1, 0, 0, 0] (by decide) (by decide)

theorem processOne_latest (s : PState) (b : List ℝ) (s' : PState)
    (h : processOne s b = some s') : s'.latest = pitchOfBlock b := by
  simp only [processOne] at h
  cases hw : writeBlock s.buf s.idx b with
  | none =>
    rw [hw] at h
    cases h
  | some p =>
    rw [hw] at h
    cases h
    rfl

/-- Claim C7: the consumer processes blocks strictly in arrival order with
none dropped (running a concatenation is running the first part and then
the second from the reached state), and after the last block the published
latest frequency is the estimate of that last block. -/
theorem blocks_in_order_final :
    (∀ (s : PState) (bs1 bs2 : List (List ℝ)),
        runBlocks s (bs1 ++ bs2) = (runBlocks s bs1).bind fun m => runBlocks m bs2) ∧
      ∀ (s : PState) (blocks : List (List ℝ)) (s' : PState) (hne : blocks ≠ []),
        runBlocks s blocks = some s' → s'.latest = pitchOfBlock (blocks.getLast hne) := by
  constructor
  · intro s bs1 bs2
    induction bs1 generalizing s with
    | nil => simp [runBlocks]
    | cons b bs ih =>
      rw [List.cons_append]
      simp only [runBlocks]
      cases hp : processOne s b with
      | none => rfl
      | some s1 => exact ih s1
  · intro s blocks
    induction blocks generalizing s with
    | nil =>
      intro s' hne
      exact absurd rfl hne
    | cons b bs ih =>
      intro s' hne h
      simp only [runBlocks] at h
      cases hp : processOne s b with
      | none =>
        rw [hp] at h
        cases h
      | some s1 =>
        rw [hp] at h
        cases bs with
        | nil =>
          simp only [runBlocks] at h
          obtain rfl := Option.some.inj h
          rw [List.getLast_singleton]
          exact processOne_latest s b _ hp
        | cons c cs =>
          rw [List.getLast_cons (by simp)]
          exact ih s1 s' (by simp) h

/-- Witness for C7 at the single concrete block `[1, 0, 0, 0]` from a
concrete initial state. -/
theorem blocks_in_order_final_witness :
    ∃ s', runBlocks ⟨[0, 0, 0, 0], 0, 0⟩ [[1, 0, 0, 0]] = some s' ∧
      s'.latest = pitchOfBlock ([1, 0, 0, 0] : List ℝ) := by
  have h : runBlocks ⟨[0, 0, 0, 0], 0, 0⟩ [[1, 0, 0, 0]] =
      some ⟨[1, 0, 0, 0], 0, pitchOfBlock ([1, 0, 0, 0] : List ℝ)⟩ := rfl
  exact ⟨_, h, blocks_in_order_final.2 _ [[1, 0, 0, 0]] _ (List.cons_ne_nil _ _) h⟩

/-- Claim C8: when the `None` sentinel is on the queue, the consumer
processes exactly the blocks queued ahead of it, in order, and then exits:
running the queue `bs.map some ++ none :: rest` from any state equals
running just the blocks `bs`, for every remainder `rest` behind the
sentinel (which is never touched). -/
theorem sentinel_drains (bs : List (List ℝ)) : ∀ (s : PState)
    (rest : List (Option (List ℝ))),
    runQueue s (bs.map some ++ none :: rest) = runBlocks s bs := by
  induction bs with
  | nil =>
    intro s rest
    rfl
  | cons b bs ih =>
    intro s rest
    rw [List.map_cons, List.cons_append]
    simp only [runQueue, runBlocks]
    cases hp : processOne s b with
    | none => rfl
    | some s1 => exact ih s1 rest

/-- Counterexample for C2 as stated: with capacity 2 and cursor 0, writing
the length-5 block `[1, 2, 3, 4, 5]` (which exceeds the capacity) does not
complete: the second slice assignment of the wrap branch has mismatched
shapes and raises, so the write returns `none`. -/
theorem write_overflow_cex :
    writeBlock ([0, 0] : List ℤ) 0 [1, 2, 3, 4, 5] = none := by
  decide

/-- Claim C2 (amended): for a block longer than the capacity, the write
completes exactly when `cursor + n ≤ 2 * capacity`; in that case it equals
sequential single-index writes through the whole block, and the buffer is
left holding exactly the last `capacity` samples of the block in
chronological order.  (For `cursor + n > 2 * capacity` the write raises,
see the counterexample.) -/
theorem write_overflow {α : Type*} (buf block : List α) (bi : ℕ) (hbi : bi < buf.length)
    (hlong : buf.length < block.length) (hfit : bi + block.length ≤ 2 * buf.length) :
    writeBlock buf bi block = some (writeSeq buf bi block) ∧
      chrono (writeSeq buf bi block).1 (writeSeq buf bi block).2 =
        lastN buf.length block := by
  obtain ⟨p, hp⟩ := writeBlock_isSome buf block bi hbi hfit
  obtain ⟨hl, hc, hch⟩ := writeBlock_eq buf block bi p.1 p.2 hbi hp
  obtain ⟨hsl, hsc⟩ := writeSeq_len_cursor block buf bi hbi
  have hsch := writeSeq_chrono block buf bi hbi
  have hlast : lastN buf.length (chrono buf bi ++ block) = lastN buf.length block :=
    lastN_append_right _ _ _ (by omega)
  have hcur : p.2 = (writeSeq buf bi block).2 := by rw [hc, hsc]
  have hbuf : p.1 = (writeSeq buf bi block).1 := by
    apply chrono_inj _ _ p.2 (by rw [hl, hsl])
    rw [hch, hcur, hsch]
  constructor
  · rw [hp, Prod.ext hbuf hcur]
  · rw [← hbuf, ← hcur, hch, hlast]

/-- Witness for C2 (amended) at capacity 2, cursor 0, block `[1, 2, 3]`. -/
theorem write_overflow_witness :
    writeBlock ([0, 0] : List ℤ) 0 [1, 2, 3] =
        some (writeSeq ([0, 0] : List ℤ) 0 [1, 2, 3]) ∧
      chrono (writeSeq ([0, 0] : List ℤ) 0 [1, 2, 3]).1
          (writeSeq ([0, 0] : List ℤ) 0 [1, 2, 3]).2 =
        lastN 2 [1, 2, 3] :=
  write_overflow ([0, 0] : List ℤ) [1, 2, 3] 0 (by decide) (by decide) (by decide)

theorem lastN_lastN {α : Type*} (X : List α) (k L : ℕ) (hk : k ≤ L) :
    lastN k (lastN L X) = lastN k X := by
  rw [lastN, lastN, lastN, List.length_drop, List.drop_drop]
  congr 1
  omega

/-- Counterexample for C3 as stated: after writing a single sample `7` into
a fresh capacity-4 buffer (so `total_written = 1`), reading the last `k = 2`
samples returns `[0, 7]` (an initial zero plus the written sample), not the
last `min(k, total_written) = 1` written samples `[7]`; and with
`k = 6 > capacity = 4` from a reachable state the read neither fails nor
returns empty: it returns the 2-sample slice `[3, 4]`. -/
theorem read_last_cex :
    (writeMany (List.replicate 4 (0 : ℤ)) 0 [[7]] = some ([7, 0, 0, 0], 1) ∧
        get_latest_plot_samples ([7, 0, 0, 0] : List ℤ) 1 2 = [0, 7]) ∧
      writeMany (List.replicate 4 (0 : ℤ)) 0 [[1, 2, 3, 4]] = some ([1, 2, 3, 4], 0) ∧
        get_latest_plot_samples ([1, 2, 3, 4] : List ℤ) 0 6 = [3, 4] := by
  decide

/-- Claim C3 (amended): for every sequence of successfully written blocks:
when `k ≤ capacity`, reading the last `k` samples returns exactly the last
`k` samples of the virtual stream "capacity initial zeros followed by all
written samples", oldest first — in particular, once `total_written ≥ k`,
exactly the last `k` written samples in chronological order; and when `k`
exceeds the capacity, the read neither fails nor returns empty: it returns
a non-empty list. -/
theorem read_last_amended (L k : ℕ) (blocks : List (List ℤ)) (buf' : List ℤ) (bi' : ℕ)
    (hL : 0 < L)
    (h : writeMany (List.replicate L (0 : ℤ)) 0 blocks = some (buf', bi')) :
    (k ≤ L →
        get_latest_plot_samples buf' bi' k =
            lastN k (List.replicate L (0 : ℤ) ++ blocks.flatten) ∧
          (k ≤ blocks.flatten.length →
            get_latest_plot_samples buf' bi' k = lastN k blocks.flatten)) ∧
      (L < k → get_latest_plot_samples buf' bi' k ≠ []) := by
  obtain ⟨hl, hb, hch⟩ := writeMany_eq blocks (List.replicate L 0) 0 buf' bi' (by simpa) h
  have hlen : buf'.length = L := by simpa using hl
  have hbi' : bi' < buf'.length := by
    rw [hlen]
    simpa using hb
  have hc2 : chrono buf' bi' = lastN L (List.replicate L (0 : ℤ) ++ blocks.flatten) := by
    simpa [chrono_zero] using hch
  constructor
  · intro hk
    have hread := get_latest_eq_lastN buf' bi' k hbi' (by rw [hlen]; exact hk)
    constructor
    · rw [hread, hc2, lastN_lastN _ k L hk]
    · intro hkf
      rw [hread, hc2, lastN_lastN _ k L hk, lastN_append_right _ _ _ hkf]
  · intro hk
    have hbk : ¬ (k ≤ bi') := by omega
    rw [get_latest_plot_samples, if_neg hbk, pySliceFrom]
    apply List.length_pos.mp
    rw [List.length_append, List.length_take]
    split_ifs with hs
    · rw [List.length_drop]
      omega
    · rw [List.length_drop]
      omega

/-- Witness for C3 (amended): capacity 4 with one written sample at
`k = 2`, and the over-capacity read `k = 6` from the reachable cursor-2
state, where the result is non-empty. -/
theorem read_last_amended_witness :
    get_latest_plot_samples ([7, 0, 0, 0] : List ℤ) 1 2 =
        lastN 2 (List.replicate 4 (0 : ℤ) ++ ([[7]] : List (List ℤ)).flatten) ∧
      get_latest_plot_samples ([1, 2, 0, 0] : List ℤ) 2 6 ≠ [] :=
  ⟨((read_last_amended 4 2 [[7]] [7, 0, 0, 0] 1 (by decide) (by decide)).1 (by decide)).1,
    (read_last_amended 4 6 [[1, 2]] [1, 2, 0, 0] 2 (by decide) (by decide)).2 (by decide)⟩

/-- Claim C9: every completed ring-buffer write preserves the cursor
invariant: from a cursor in `[0, capacity)`, the new cursor is
`(cursor + n) mod capacity`, again in `[0, capacity)`, and it points to the
index that will be overwritten next: a following one-sample write `y` sets
exactly the index `cursor'`. -/
theorem cursor_invariant {α : Type*} (buf block : List α) (bi : ℕ) (buf' : List α)
    (bi' : ℕ) (hbi : bi < buf.length)
    (h : writeBlock buf bi block = some (buf', bi')) :
    buf'.length = buf.length ∧ bi' = (bi + block.length) % buf.length ∧
      bi' < buf.length ∧
      ∀ y, writeBlock buf' bi' [y] = some (buf'.set bi' y, (bi' + 1) % buf'.length) := by
  obtain ⟨hl, hc, _⟩ := writeBlock_eq buf block bi buf' bi' hbi h
  have hbi' : bi' < buf.length := by
    rw [hc]
    exact Nat.mod_lt _ (by omega)
  refine ⟨hl, hc, hbi', ?_⟩
  intro y
  simp only [writeBlock, List.length_cons, List.length_nil]
  rw [if_pos (show bi' + (0 + 1) ≤ buf'.length by rw [hl]; omega)]
  congr 2
  rw [setSlice, List.set_eq_take_cons_drop y (show bi' < buf'.length by rw [hl]; omega),
    List.append_assoc, List.singleton_append]
  simp

/-- Witness for C9 at capacity 3: writing `[5, 6]` at cursor 1 yields cursor
0, and a following one-sample write lands at index 0. -/
theorem cursor_invariant_witness :
    ([0, 5, 6] : List ℤ).length = ([0, 0, 0] : List ℤ).length ∧
      (0 : ℕ) = (1 + ([5, 6] : List ℤ).length) % ([0, 0, 0] : List ℤ).length ∧
      (0 : ℕ) < ([0, 0, 0] : List ℤ).length ∧
      writeBlock ([0, 5, 6] : List ℤ) 0 [9] =
        some (([0, 5, 6] : List ℤ).set 0 9, (0 + 1) % ([0, 5, 6] : List ℤ).length) := by
  obtain ⟨h1, h2, h3, h4⟩ := cursor_invariant ([0, 0, 0] : List ℤ) [5, 6] 1 [0, 5, 6] 0
    (by decide) (by decide)
  exact ⟨h1, h2, h3, h4 9⟩

theorem pyround_intCast (n : ℤ) : pyround ((n : ℤ) : ℝ) = n := by
  rw [pyround, if_neg, round_intCast]
  rw [Int.fract_intCast]
  norm_num

theorem freq_to_note_pos (f : ℝ) (hf : 0 < f) : freq_to_note f = specNote f := by
  rw [freq_to_note, if_neg (not_le.mpr hf)]
  rfl

theorem specMidiFloat_440 : specMidiFloat 440 = 69 := by
  rw [specMidiFloat]
  norm_num [Real.logb_one]

theorem specMidiInt_440 : specMidiInt 440 = 69 := by
  rw [specMidiInt, specMidiFloat_440, show (69 : ℝ) = ((69 : ℤ) : ℝ) by norm_num,
    pyround_intCast]
  decide

/-- Claim C4: for every positive frequency, `freq_to_note` returns the
note name `NOTE_NAMES[midi mod 12]` followed by the octave `midi / 12 - 1`
and the cents `(midi_float - midi) * 100`, where
`midi_float = 69 + 12 * log2(f / 440)` and `midi` is `midi_float` rounded
to the nearest integer (Python rounds ties to even) then clamped to
`[0, 127]`; in particular `freq_to_note 440 = ("A4", 0)`. -/
theorem freq_to_note_formula :
    (∀ f : ℝ, 0 < f → freq_to_note f = specNote f) ∧
      freq_to_note 440 = ("A4", 0) := by
  refine ⟨freq_to_note_pos, ?_⟩
  rw [freq_to_note_pos 440 (by norm_num), specNote, specMidiInt_440, specMidiFloat_440]
  simp only [Prod.mk.injEq]
  constructor
  · rfl
  · push_cast
    ring

/-- Witness for C4 at the concrete input 440 Hz. -/
theorem freq_to_note_formula_witness :
    freq_to_note 440 = specNote 440 ∧ freq_to_note 440 = ("A4", 0) :=
  ⟨freq_to_note_formula.1 440 (by norm_num), freq_to_note_formula.2⟩

/-- Claim C5: for every frequency at most 0 (including 0 and negative
values), `freq_to_note` returns the explicit undefined marker `"--"` with
zero cents; it is a total function, so no error is raised and no note is
computed. -/
theorem freq_to_note_nonpos (f : ℝ) (h : f ≤ 0) : freq_to_note f = ("--", 0) := by
  rw [freq_to_note, if_pos h]

/-- Witness for C5 at the concrete inputs 0 and -5. -/
theorem freq_to_note_nonpos_witness :
    freq_to_note 0 = ("--", 0) ∧ freq_to_note (-5) = ("--", 0) :=
  ⟨freq_to_note_nonpos 0 le_rfl, freq_to_note_nonpos (-5) (by norm_num)⟩

theorem specMidiFloat_28160 : specMidiFloat 28160 = 141 := by
  rw [specMidiFloat, show (28160 : ℝ) / 440 = 2 ^ (6 : ℕ) by norm_num,
    Real.logb_pow, Real.logb_self_eq_one (by norm_num)]
  norm_num

theorem specMidiInt_28160 : specMidiInt 28160 = 127 := by
  rw [specMidiInt, specMidiFloat_28160, show (141 : ℝ) = ((141 : ℤ) : ℝ) by norm_num,
    pyround_intCast]
  decide

theorem specMidiInt_mem (f : ℝ) : 0 ≤ specMidiInt f ∧ specMidiInt f ≤ 127 := by
  rw [specMidiInt]
  omega

/-- Claim C10: for every positive frequency the returned note name is one
of the twelve fixed names with an octave between -1 and 9, because the MIDI
number is clamped to `[0, 127]` before name and octave are derived; and for
a frequency whose unclamped MIDI value lies outside `[0, 127]` the cents
fall outside `(-50, 50]`: at 28160 Hz (unclamped MIDI 141) the cents are
`(141 - 127) * 100 = 1400`. -/
theorem note_name_in_range :
    (∀ f : ℝ, 0 < f → ∃ (i : ℕ) (oct : ℤ), i < 12 ∧ -1 ≤ oct ∧ oct ≤ 9 ∧
        (freq_to_note f).1 = NOTE_NAMES.getD i "" ++ toString oct) ∧
      (freq_to_note 28160).2 = 1400 := by
  constructor
  · intro f hf
    rw [freq_to_note_pos f hf, specNote]
    refine ⟨(specMidiInt f % 12).toNat, specMidiInt f / 12 - 1, ?_, ?_, ?_, rfl⟩
    · have h := specMidiInt_mem f
      omega
    · have h := specMidiInt_mem f
      omega
    · have h := specMidiInt_mem f
      omega
  · rw [freq_to_note_pos 28160 (by norm_num), specNote]
    simp only
    rw [specMidiInt_28160, specMidiFloat_28160]
    push_cast
    ring

/-- Witness for C10 at the concrete input 440 Hz. -/
theorem note_name_in_range_witness :
    ∃ (i : ℕ) (oct : ℤ), i < 12 ∧ -1 ≤ oct ∧ oct ≤ 9 ∧
      (freq_to_note 440).1 = NOTE_NAMES.getD i "" ++ toString oct :=
  note_name_in_range.1 440 (by norm_num)

end Claims

end AudioFreq
